import Mathlib

/-!
Verification development for the ExterminatorBot repository.

The definitions below are a shallow embedding of the Python sources:
`lib_reddit.py` (submission predicates), `lib_images.py` (candidate search
and the similarity matcher), `lib_users.py` (the Suspicion scorer) and
`lib_scanner.py` (the Scanner work loop).  Machine floats are modelled by
rationals where the programs only compare and average scores, and by real
numbers where the scorer applies exponential and logistic curves.
External capabilities (the PRAW platform client, OpenCV image decoding,
SIFT descriptor extraction, FLANN matching, the unidecode transliterator)
are modelled as explicit function parameters, so that the code under
verification is exactly the repository logic that combines them.
-/

/-- A Reddit submission or comment as the repository observes it: the PRAW
fields that the embedded code reads.  `hasBody` models `hasattr(sub, 'body')`
(true exactly for comments), `likes` models the prior-vote flag, `created`
is `created_utc` in seconds. -/
structure Subm where
  id : Nat
  title : List Char
  url : List Char
  permalink : List Char
  created : Rat
  isSelf : Bool
  hasBody : Bool
  likes : Option Bool
deriving DecidableEq

/-- Embeds `lib_reddit.is_comment`: a comment is an item with a `body`. -/
def is_comment (s : Subm) : Bool := s.hasBody

/-- Basename of a URL path: the characters after the last slash
(the relevant part of `os.path.basename`). -/
def baseName (url : List Char) : List Char :=
  (url.reverse.takeWhile (fun c => !(c == '/'))).reverse

/-- Extension part of `os.path.splitext` applied to a URL: leading dots of
the basename never start an extension; otherwise the extension runs from the
last dot of the basename. -/
def splitextExt (url : List Char) : List Char :=
  let base := baseName url
  let rest := base.dropWhile (fun c => c == '.')
  let revTail := rest.reverse.takeWhile (fun c => !(c == '.'))
  if revTail.length == rest.length then [] else '.' :: revTail.reverse

/-- Substring test, modelling the Python `in` operator on strings. -/
def strContains (pat : List Char) : List Char → Bool
  | [] => pat.isEmpty
  | c :: cs => pat.isPrefixOf (c :: cs) || strContains pat cs

/-- Embeds `lib_reddit.is_image`: reject comments, text posts, non
`i.redd.it` hosts, and unsupported extensions. -/
def is_image (s : Subm) : Bool :=
  if is_comment s then false
  else if s.isSelf then false
  else if !(strContains ("i.redd.it".toList) s.url) then false
  else if !(splitextExt s.url == ".jpg".toList || splitextExt s.url == ".png".toList) then false
  else true

/-- Loop body of `TitleSearch.search`: iterate the listing in order, stop
once `limit` results are kept, skip the reference itself (PRAW compares
submissions by id) and any non-image, append everything else. -/
def searchGo (sub : Subm) (limit : Nat) : List Subm → List Subm → List Subm
  | [], acc => acc
  | i :: rest, acc =>
      if limit ≤ acc.length then acc
      else if i.id == sub.id then searchGo sub limit rest acc
      else if !(is_image i) then searchGo sub limit rest acc
      else searchGo sub limit rest (acc ++ [i])

/-- Embeds the result-filtering part of `TitleSearch.search`, taking the
listing returned by the platform search as input. -/
def search (listing : List Subm) (sub : Subm) (limit : Nat) : List Subm :=
  searchGo sub limit listing []

/-- A grayscale raster, as produced by `ImageObject.cv`: a list of pixel
rows. -/
abbrev Raster := List (List Nat)

/-- Embeds `cv2.flip(img, 0)` (flip code 0): mirror around the horizontal
axis, i.e. reverse the order of the rows. -/
def flipVert (r : Raster) : Raster := r.reverse

/-- Mirror around the vertical axis (flip code 1 in OpenCV): reverse each
row, i.e. reverse the column order.  The code never calls this; it is here
to state what a horizontal mirror would be. -/
def flipHoriz (r : Raster) : Raster := r.map List.reverse

/-- One k=2 nearest-neighbour answer from `flann.knnMatch`: the distances of
the best and second-best correspondence for one query descriptor. -/
structure MatchPair where
  dBest : Rat
  dSecond : Rat
deriving DecidableEq

/-- The external Image Capability as `compare` consumes it: per-submission
decoded raster (download + `ImageObject.cv`), SIFT descriptor extraction
(`sift.detectAndCompute`), and FLANN k=2 matching (`flann.knnMatch`).
`D` is the opaque descriptor type. -/
structure CmpEnv (D : Type) where
  raster : Subm → Raster
  extract : Raster → List D
  knn : List D → List D → List MatchPair

/-- Lowe ratio test of `compare`: count the matches whose best distance is
below 0.7 times the second-best distance. -/
def goodCount (ms : List MatchPair) : Nat :=
  (ms.filter (fun m => decide (m.dBest < 7/10 * m.dSecond))).length

/-- Embeds `ImageObject.sift`: extract descriptors from the raster, after a
`cv2.flip(img, 0)` when `flip` is set. -/
def imageSift {D : Type} (env : CmpEnv D) (s : Subm) (flip : Bool) : List D :=
  if flip then env.extract (flipVert (env.raster s)) else env.extract (env.raster s)

/-- Per-candidate score of `compare`: fraction of good matches against the
original and against the mirrored reference descriptors, best of the two. -/
def candScore {D : Type} (env : CmpEnv D) (dscRef dscRem dscAlt : List D) : Rat :=
  let r1 : Rat := (goodCount (env.knn dscRef dscAlt) : Rat) / (dscRef.length : Rat)
  let r2 : Rat := (goodCount (env.knn dscRem dscAlt) : Rat) / (dscRem.length : Rat)
  max r1 r2

/-- Date threshold of `lib_images.py`: `timedelta(seconds = 1)`. -/
def DATE_THRESHOLD : Rat := 1

/-- Running-best update of `compare`.  `refDate` is `best_date`, which the
source initialises to the reference date and never reassigns, so the date
tiebreaker always compares against the reference post.  The update fires on
a strictly better score, or on a score no worse when the candidate is more
than `DATE_THRESHOLD` older than `refDate`. -/
def compareStep {D : Type} (env : CmpEnv D) (dscRef dscRem : List D) (refDate : Rat)
    (st : Nat × Rat) (p : Nat × Subm) : Nat × Rat :=
  let score := candScore env dscRef dscRem (env.extract (env.raster p.2))
  let diffDate := refDate - p.2.created
  let diffScore := score - st.2
  if 0 < diffScore ∨ (DATE_THRESHOLD < diffDate ∧ 0 ≤ diffScore) then (p.1, score) else st

/-- Embeds `lib_images.compare`, instrumented: besides the result
`(best match, confidence)` it returns the list of rasters handed to the
descriptor extractor, in call order (`img_ref.sift(False)`,
`img_ref.sift(True)`, then one `img.sift()` per candidate).  An empty
candidate list returns before any image is downloaded, decoded or
extracted. -/
def compareRun {D : Type} (env : CmpEnv D) (ref : Subm) (alt : List Subm) :
    (Option Subm × Rat) × List Raster :=
  if alt.isEmpty then ((none, 0), [])
  else
    let dscRef := imageSift env ref false
    let dscRem := imageSift env ref true
    let st := alt.enum.foldl (compareStep env dscRef dscRem ref.created) (0, 0)
    ((alt.get? st.1, st.2), env.raster ref :: flipVert (env.raster ref) :: alt.map env.raster)

/-- Embeds the result part of `lib_images.compare` (named apart from the core function `compare`). -/
def compareBest {D : Type} (env : CmpEnv D) (ref : Subm) (alt : List Subm) : Option Subm × Rat :=
  (compareRun env ref alt).1

/-- Fixture: a reference submission created at t = 1000 s. -/
def sub0 : Subm := ⟨0, [], [], [], 1000, false, false, none⟩

/-- Fixture: a candidate created at t = 100 s, the oldest post involved. -/
def altSub1 : Subm := ⟨1, [], [], [], 100, false, false, none⟩

/-- Fixture: a candidate created at t = 200 s, newer than `altSub1` but
still more than one second older than `sub0`. -/
def altSub2 : Subm := ⟨2, [], [], [], 200, false, false, none⟩

/-- Fixture environment: the reference decodes to a fixed asymmetric 2x2
raster, every candidate to a constant raster; extraction always yields two
descriptors and matching always yields one good and one bad pair, so every
candidate scores 1/2. -/
def env0 : CmpEnv Nat where
  raster := fun s => if s.id == 0 then [[0, 1], [2, 3]] else [[7, 7], [7, 7]]
  extract := fun _ => [0, 1]
  knn := fun _ _ => [⟨0, 1⟩, ⟨1, 1⟩]

/-- Fixture environment where no match ever passes the ratio test, so every
candidate scores 0. -/
def envZero : CmpEnv Nat where
  raster := fun _ => [[0]]
  extract := fun _ => [0, 1]
  knn := fun _ _ => [⟨1, 1⟩, ⟨1, 1⟩]

/-- Embeds the downsampling loop of `ImageObject.cv`: while the MINIMUM of
the two dimensions exceeds 512, halve both dimensions (`cv2.resize` is
modelled as producing the requested size; the loop condition and the bound
proved below are symmetric in the two dimensions, so the dimension order
convention of `cv2.resize` does not matter here). -/
def cvLoop (p : Nat × Nat) : Nat × Nat :=
  if 512 < min p.1 p.2 then cvLoop (p.1 / 2, p.2 / 2) else p
termination_by p.1
decreasing_by
  rename_i h
  have h1 : 512 < p.1 := lt_of_lt_of_le h (min_le_left _ _)
  omega

/-- Symmetric logistic function, embedding `lib_users.logistic`. -/
noncomputable def logistic (x : ℝ) : ℝ := 1 / (1 + Real.exp (-x))

/-- State of a constructed `Suspicion` object: the search depth `limit`,
the account creation time in seconds, and the cached activity window
`items` (empty when `user.new` raised, e.g. for a deleted account).  The
external fetches of `score_dormancy` (the two `user.top` counts) surface
as `numOld`/`numNew` arguments, and the wall clock of `score_age` as a
`now` argument. -/
structure Suspicion where
  limit : Nat
  userCreated : Rat
  items : List Subm

/-- Embeds `Suspicion.score_age`: exponential decay of the account age
against 180 days, or 0.0 on an empty window. -/
noncomputable def Suspicion.score_age (s : Suspicion) (now : Rat) : ℝ :=
  if s.items.isEmpty then 0
  else Real.exp (-3 * (((now : ℝ) - (s.userCreated : ℝ)) / (180 * 86400)))

/-- Embeds `Suspicion.score_count`: exponential decay of the window fill
ratio, shifted down by 0.5; computed whether or not the window is empty. -/
noncomputable def Suspicion.score_count (s : Suspicion) : ℝ :=
  Real.exp (-3 * ((s.items.length : ℝ) / (s.limit : ℝ))) - 1/2

/-- Embeds `Suspicion.score_dormancy`: soft-step of the lifetime-versus-
recent top-content ratio, or 0.0 on an empty window. -/
noncomputable def Suspicion.score_dormancy (s : Suspicion) (numOld numNew : Nat) : ℝ :=
  if s.items.isEmpty then 0
  else logistic (-6 * (((numOld : ℝ) - (numNew : ℝ)) / (numOld : ℝ)))

/-- Embeds `Suspicion.score_images`: running tally starting at -1,
comments subtract 2, image posts add 1; soft-step of the tally over
`min(limit, 1 + len(items))`. -/
noncomputable def Suspicion.score_images (s : Suspicion) : ℝ :=
  let score : Int := s.items.foldl
    (fun acc it => if is_comment it then acc - 2 else if is_image it then acc + 1 else acc) (-1)
  let lim : Nat := min s.limit (1 + s.items.length)
  logistic (3 * (score : ℝ) / (lim : ℝ))

/-- Watchlist test of `Suspicion.score_scum` for one activity item:
does its permalink contain one of the two deny-listed subreddits? -/
def scumHit (it : Subm) : Bool :=
  strContains ("/r/freekarma4u".toList) it.permalink ||
  strContains ("/r/freekarma4you".toList) it.permalink

/-- Embeds `Suspicion.score_scum`: 1.0 on the first watchlist hit in the
window, else 0.0. -/
noncomputable def Suspicion.score_scum (s : Suspicion) : ℝ :=
  if s.items.any scumHit then 1 else 0

/-- Embeds `Suspicion.score_overall`: weighted sum of the five components
(weights 0.6, 1.0, 1.0, 3.0, 3.0) minus the fixed bias 1.0, soft-stepped
with steepness 3. -/
noncomputable def Suspicion.score_overall (s : Suspicion) (now : Rat) (numOld numNew : Nat) : ℝ :=
  logistic (3 * ((6/10 * s.score_age now + 1 * s.score_count +
    1 * s.score_dormancy numOld numNew + 3 * s.score_images + 3 * s.score_scum) - 1))

/-- A `SpamVerdict` as enqueued by `Scanner.scan`: the tuple
`(sub.id, msg_short, msg_long)`, with the messages abstracted to their
dynamic content, namely the matched permalink and the reported confidence
`avg_score`. -/
structure SpamVerdict where
  postId : Nat
  altPermalink : List Char
  confidence : Rat
deriving DecidableEq

/-- Scanner configuration: the two thresholds and the search depth held by
the parent `Exterminator`. -/
structure ScanCfg where
  threshUser : Rat
  threshPost : Rat
  searchDepth : Nat
deriving DecidableEq

/-- Embeds `Scanner.scan`.  Inputs surface the externals: `listing` is the
platform search result consumed by `TitleSearch.search`, `replied` the
result of `any_replies_by(self.parent.user, sub)`, `usrScore` the value of
`Suspicion(sub.author).score_overall()`.  The first component is
`Except.ok (some v)` when a verdict is enqueued, `Except.ok none` on a
silent discard, and `Except.error ()` when the message formatting
dereferences `alt_img.permalink` with `alt_img = None` (an
`AttributeError` in Python, caught by the worker loop).  The second
component records whether the Candidate Search / Matcher stage was
invoked. -/
def scan {D : Type} (cfg : ScanCfg) (env : CmpEnv D) (listing : List Subm) (sub : Subm)
    (replied : Bool) (usrScore : Rat) : Except Unit (Option SpamVerdict) × Bool :=
  if !(sub.likes == none) then (Except.ok none, false)
  else if replied then (Except.ok none, false)
  else if usrScore < cfg.threshUser then (Except.ok none, false)
  else
    let res := compareBest env sub (search listing sub cfg.searchDepth)
    if res.2 < cfg.threshPost then (Except.ok none, true)
    else
      match res.1 with
      | none => (Except.error (), true)
      | some img => (Except.ok (some ⟨sub.id, img.permalink, (usrScore + res.2) / 2⟩), true)

/-- The apostrophe character, kept by the search whitelist. -/
def apostChar : Char := Char.ofNat 39

/-- Whitelist of the query normalization: the character class
`A-Za-z0-9` plus apostrophe. -/
def keepChar (c : Char) : Bool :=
  (decide (Char.ofNat 65 ≤ c) && decide (c ≤ Char.ofNat 90)) ||
  (decide (Char.ofNat 97 ≤ c) && decide (c ≤ Char.ofNat 122)) ||
  (decide (Char.ofNat 48 ≤ c) && decide (c ≤ Char.ofNat 57)) || c == apostChar

/-- ASCII whitespace as matched by the regex class `\s` and by `strip`. -/
def pyIsSpace (c : Char) : Bool :=
  c == ' ' || c == Char.ofNat 9 || c == Char.ofNat 10 || c == Char.ofNat 11 ||
  c == Char.ofNat 12 || c == Char.ofNat 13

/-- Negation of the whitelist: the regex class of `SEARCH_CHARS`. -/
def badW (c : Char) : Bool := !(keepChar c)

/-- Embeds `re.sub` with a one-or-more character-class pattern and a
single-space replacement: every maximal run of `bad` characters becomes
one space.  The flag records whether the previous character was part of a
bad run. -/
def collapseRuns (bad : Char → Bool) : Bool → List Char → List Char
  | _, [] => []
  | pb, c :: cs =>
      if bad c then
        if pb then collapseRuns bad true cs else ' ' :: collapseRuns bad true cs
      else c :: collapseRuns bad false cs

/-- Remove trailing whitespace (the right half of `str.strip`). -/
def dropTrailingWs : List Char → List Char
  | [] => []
  | c :: cs =>
      let r := dropTrailingWs cs
      if r.isEmpty && pyIsSpace c then [] else c :: r

/-- Embeds `str.strip`: drop leading and trailing whitespace. -/
def pyStrip (l : List Char) : List Char := dropTrailingWs (l.dropWhile pyIsSpace)

/-- Embeds the query normalization of `TitleSearch.search`: transliterate
(`unidecode`, the external parameter `tr`), replace runs outside the
whitelist by single spaces, strip, and collapse whitespace runs. -/
def normalizeQuery (tr : List Char → List Char) (t : List Char) : List Char :=
  collapseRuns pyIsSpace false (pyStrip (collapseRuns badW false (tr t)))

/-- No two adjacent characters both satisfy `bad`. -/
def noTwoBad (bad : Char → Bool) : List Char → Bool
  | c1 :: c2 :: rest => (!(bad c1 && bad c2)) && noTwoBad bad (c2 :: rest)
  | _ => true

/-- A string in the image of the normalization: whitelist characters and
single interior spaces only. -/
def NormalizedStr (l : List Char) : Prop :=
  (∀ c ∈ l, keepChar c = true ∨ c = ' ') ∧ noTwoBad badW l = true ∧
  (∀ c, l.head? = some c → keepChar c = true) ∧
  (∀ c, l.getLast? = some c → keepChar c = true)

/-- Fixture: a `Suspicion` state with an empty activity window (deleted
account) and the default search depth 50. -/
def susEmpty : Suspicion := ⟨50, 0, []⟩

/-- Fixture: a `Suspicion` state whose activity window is full (50 items
in a window of limit 50). -/
def susFull : Suspicion := ⟨50, 0, List.replicate 50 sub0⟩

/-- Fixture environment whose `knn` returns one answer per query
descriptor, as the real `flann.knnMatch` does. -/
def envLen : CmpEnv Nat where
  raster := fun _ => [[0]]
  extract := fun _ => [0, 1]
  knn := fun q _ => q.map (fun _ => ⟨0, 1⟩)

/-- Fixture: the deployed default configuration (both thresholds 0.5). -/
def cfgHalf : ScanCfg := ⟨1/2, 1/2, 3⟩

/-- Fixture: a degenerate configuration with both thresholds 0. -/
def cfgZero : ScanCfg := ⟨0, 0, 3⟩

theorem searchGo_eq (sub : Subm) (limit : Nat) :
    ∀ (l : List Subm) (acc : List Subm), acc.length ≤ limit →
      searchGo sub limit l acc =
        acc ++ (l.filter (fun i => !(i.id == sub.id) && is_image i)).take (limit - acc.length) := by
  intro l
  induction l with
  | nil => intro acc _; simp [searchGo]
  | cons i rest ih =>
      intro acc hacc
      by_cases hfull : limit ≤ acc.length
      · have hlen : acc.length = limit := Nat.le_antisymm hacc hfull
        simp [searchGo, hfull, hlen]
      · have hlt : acc.length < limit := Nat.lt_of_not_le hfull
        by_cases hid : i.id = sub.id
        · simp [searchGo, hfull, hid, ih acc hacc]
        · by_cases himg : is_image i = true
          · have h1 : acc.length + 1 ≤ limit := hlt
            have := ih (acc ++ [i]) (by simpa using h1)
            simp [searchGo, hfull, hid, himg, this]
            have htake : limit - acc.length = (limit - (acc.length + 1)) + 1 := by omega
            rw [htake]
            simp [List.take_succ_cons]
          · simp [searchGo, hfull, hid, himg, ih acc hacc]

/-- C9: for every reference post and limit, the candidate search keeps
exactly the first qualifying results of the listing, in order: the result is
the `limit`-prefix of the listing filtered to image posts distinct from the
reference; hence its length is at most `limit`, every element is a
qualifying image post other than the reference, and the reference itself
never appears. -/
theorem search_first_qualifying (listing : List Subm) (sub : Subm) (limit : Nat) :
    search listing sub limit =
      (listing.filter (fun i => !(i.id == sub.id) && is_image i)).take limit
    ∧ (search listing sub limit).length ≤ limit
    ∧ (∀ i ∈ search listing sub limit, is_image i = true ∧ i.id ≠ sub.id)
    ∧ sub ∉ search listing sub limit := by
  have heq := searchGo_eq sub limit listing [] (by simp)
  have hmain : search listing sub limit =
      (listing.filter (fun i => !(i.id == sub.id) && is_image i)).take limit := by
    simpa [search] using heq
  refine ⟨hmain, ?_, ?_, ?_⟩
  · rw [hmain]; exact List.length_take_le _ _
  · intro i hi
    rw [hmain] at hi
    have hmem : i ∈ listing.filter (fun i => !(i.id == sub.id) && is_image i) :=
      List.mem_of_mem_take hi
    have hp := List.of_mem_filter hmem
    simp only [Bool.and_eq_true, Bool.not_eq_true', beq_eq_false_iff_ne] at hp
    exact ⟨hp.2, hp.1⟩
  · intro hmem
    rw [hmain] at hmem
    have hmem2 : sub ∈ listing.filter (fun i => !(i.id == sub.id) && is_image i) :=
      List.mem_of_mem_take hmem
    have hp := List.of_mem_filter hmem2
    simp at hp

/-- C4: for every environment and reference post, `compare` on an empty
candidate list returns `(none, 0.0)` with an empty extraction trace: the
Image Capability is never invoked (the early return precedes even the
construction of the reference `ImageObject`). -/
theorem compare_empty_no_image_work {D : Type} (env : CmpEnv D) (ref : Subm) :
    compareRun env ref [] = ((none, 0), []) := rfl

/-- C8 counterexample: on a concrete asymmetric reference raster, the
extraction trace contains the vertically mirrored raster (rows reversed)
once and the horizontally mirrored raster (columns reversed) zero times, so
the claim that the second reference descriptor set comes from the
horizontal mirror is false. -/
theorem compare_mirror_not_horizontal :
    ((compareRun env0 sub0 [altSub1]).2).count (flipHoriz (env0.raster sub0)) = 0 ∧
    ((compareRun env0 sub0 [altSub1]).2).count (flipVert (env0.raster sub0)) = 1 := by
  norm_num [compareRun, flipHoriz, flipVert, env0, sub0, altSub1, List.count_cons]

/-- C8 amended: on a non-empty candidate list the Matcher extracts exactly
two descriptor sets from the reference image, one from the original raster
and one from the VERTICALLY mirrored raster (rows reversed, `cv2.flip` with
flip code 0), and each candidate raster is extracted exactly once, in list
order. -/
theorem compare_extracts {D : Type} (env : CmpEnv D) (ref : Subm) (alt : List Subm)
    (h : alt ≠ []) :
    (compareRun env ref alt).2 =
      env.raster ref :: flipVert (env.raster ref) :: alt.map env.raster := by
  simp [compareRun, List.isEmpty_iff, h]

/-- Closed witness for `compare_extracts` at a concrete input. -/
theorem compare_extracts_witness :
    ([altSub1] ≠ ([] : List Subm)) ∧
    (compareRun env0 sub0 [altSub1]).2 =
      env0.raster sub0 :: flipVert (env0.raster sub0) :: [altSub1].map env0.raster :=
  ⟨by simp, compare_extracts env0 sub0 [altSub1] (by simp)⟩

/-- C2: evaluation of `compare` at the failing input.  Both candidates score
exactly 1/2; `altSub1` (index 0, created t = 100) is strictly older than
`altSub2` (index 1, created t = 200), yet the code selects `altSub2`,
because `best_date` is initialised to the reference date (t = 1000) and
never updated, so the equal-score tiebreak fires for every candidate more
than one second older than the reference, and the last such candidate
wins.  The source comment says: in case of tie, pick the oldest. -/
theorem compare_tiebreak_uses_reference_date :
    compareBest env0 sub0 [altSub1, altSub2] = (some altSub2, 1/2) ∧
    altSub1.created < altSub2.created := by
  constructor
  · norm_num [compareBest, compareRun, compareStep, candScore, goodCount, imageSift,
      env0, sub0, altSub1, altSub2, DATE_THRESHOLD, flipVert, List.enum, List.enumFrom]
  · norm_num [altSub1, altSub2]

theorem mem_of_mem_enumFrom {α : Type} :
    ∀ (l : List α) (k : Nat) (p : Nat × α), p ∈ List.enumFrom k l →
      k ≤ p.1 ∧ p.1 < k + l.length ∧ p.2 ∈ l := by
  intro l
  induction l with
  | nil => intro k p hp; simp [List.enumFrom] at hp
  | cons a t ih =>
      intro k p hp
      simp only [List.enumFrom, List.mem_cons] at hp
      rcases hp with hp | hp
      · subst hp
        exact ⟨Nat.le_refl _, by simp only [List.length_cons]; omega, List.mem_cons_self _ _⟩
      · rcases ih (k + 1) p hp with ⟨h1, h2, h3⟩
        exact ⟨by omega, by simp only [List.length_cons]; omega, List.mem_cons_of_mem _ h3⟩

theorem compareStep_cases {D : Type} (env : CmpEnv D) (dscRef dscRem : List D) (refDate : Rat)
    (st : Nat × Rat) (p : Nat × Subm) :
    compareStep env dscRef dscRem refDate st p =
      (p.1, candScore env dscRef dscRem (env.extract (env.raster p.2))) ∨
    compareStep env dscRef dscRem refDate st p = st := by
  simp only [compareStep]
  split
  · exact Or.inl rfl
  · exact Or.inr rfl

theorem compareFold_fst_lt {D : Type} (env : CmpEnv D) (dscRef dscRem : List D) (refDate : Rat) :
    ∀ (l : List (Nat × Subm)) (st : Nat × Rat) (n : Nat), st.1 < n → (∀ p ∈ l, p.1 < n) →
      (l.foldl (compareStep env dscRef dscRem refDate) st).1 < n := by
  intro l
  induction l with
  | nil => intro st n hst _; simpa using hst
  | cons p t ih =>
      intro st n hst hall
      rw [List.foldl_cons]
      rcases compareStep_cases env dscRef dscRem refDate st p with hstep | hstep <;> rw [hstep]
      · exact ih _ n (hall p (List.mem_cons_self p t)) (fun q hq => hall q (List.mem_cons_of_mem _ hq))
      · exact ih _ n hst (fun q hq => hall q (List.mem_cons_of_mem _ hq))

theorem getLast?_cons_cases {α : Type} [DecidableEq α] (a : α) (l : List α) :
    (a :: l).getLast? = if l = [] then some a else l.getLast? := by
  cases l with
  | nil => simp
  | cons b t =>
      rw [List.getLast?_cons_cons, if_neg (by simp)]

theorem compareFold_zero {D : Type} (env : CmpEnv D) (dscRef dscRem : List D) (refDate : Rat) :
    ∀ (l : List (Nat × Subm)) (i : Nat),
      (∀ p ∈ l, candScore env dscRef dscRem (env.extract (env.raster p.2)) = 0) →
      l.foldl (compareStep env dscRef dscRem refDate) (i, 0) =
        ((((l.filter (fun p => decide (DATE_THRESHOLD < refDate - p.2.created))).getLast?.map
            Prod.fst).getD i), 0) := by
  intro l
  induction l with
  | nil => intro i _; simp
  | cons p t ih =>
      intro i hz
      have hz0 := hz p (List.mem_cons_self p t)
      have hzt : ∀ q ∈ t, candScore env dscRef dscRem (env.extract (env.raster q.2)) = 0 :=
        fun q hq => hz q (List.mem_cons_of_mem _ hq)
      by_cases hd : DATE_THRESHOLD < refDate - p.2.created
      · have hstep : compareStep env dscRef dscRem refDate (i, 0) p = (p.1, 0) := by
          simp [compareStep, hz0, hd]
        have hf : (p :: t).filter (fun p => decide (DATE_THRESHOLD < refDate - p.2.created)) =
            p :: t.filter (fun p => decide (DATE_THRESHOLD < refDate - p.2.created)) := by
          simp [List.filter_cons, hd]
        rw [List.foldl_cons, hstep, ih p.1 hzt, hf, getLast?_cons_cases]
        by_cases hft : t.filter (fun p => decide (DATE_THRESHOLD < refDate - p.2.created)) = []
        · simp [hft]
        · rw [if_neg hft]
          rcases hsome : (t.filter
              (fun p => decide (DATE_THRESHOLD < refDate - p.2.created))).getLast? with _ | q
          · exact absurd (List.getLast?_eq_none_iff.mp hsome) hft
          · rw [hsome]; simp
      · have hstep : compareStep env dscRef dscRem refDate (i, 0) p = (i, 0) := by
          simp [compareStep, hz0, hd]
        have hf : (p :: t).filter (fun p => decide (DATE_THRESHOLD < refDate - p.2.created)) =
            t.filter (fun p => decide (DATE_THRESHOLD < refDate - p.2.created)) := by
          simp [List.filter_cons, hd]
        rw [List.foldl_cons, hstep, ih i hzt, hf]

/-- C10 counterexample: with a concrete environment in which every candidate
scores 0, the Matcher does not return the first candidate: `altSub2`, the
last candidate more than one second older than the reference, replaces
index 0 through the date tiebreak, so the claim that the first candidate is
returned when no candidate scores above 0 is false. -/
theorem compare_zero_scores_not_first :
    compareBest envZero sub0 [altSub1, altSub2] = (some altSub2, 0) ∧ altSub2 ≠ altSub1 := by
  constructor
  · norm_num [compareBest, compareRun, compareStep, candScore, goodCount, imageSift,
      envZero, sub0, altSub1, altSub2, DATE_THRESHOLD, flipVert, List.enum, List.enumFrom]
  · simp [altSub1, altSub2]

/-- C10 amended: for every non-empty candidate list the Matcher returns
some element of the list (a `none` result happens exactly on the empty
list); and when every candidate scores 0, it returns confidence 0.0
together with the candidate at the last index whose creation time precedes
the reference date by more than one second, or the first candidate when
there is no such index. -/
theorem compareBest_nonempty {D : Type} (env : CmpEnv D) (ref : Subm) (alt : List Subm)
    (h : alt ≠ []) :
    (∃ c ∈ alt, (compareBest env ref alt).1 = some c) ∧
    (compareBest env ref ([] : List Subm)).1 = none ∧
    ((∀ c ∈ alt, candScore env (imageSift env ref false) (imageSift env ref true)
        (env.extract (env.raster c)) = 0) →
      compareBest env ref alt =
        (alt.get? (((alt.enum.filter
            (fun p => decide (DATE_THRESHOLD < ref.created - p.2.created))).getLast?.map
              Prod.fst).getD 0), 0)) := by
  have hne : alt.isEmpty = false := by
    cases alt with
    | nil => exact absurd rfl h
    | cons a t => rfl
  have hlen : 0 < alt.length := by
    cases alt with
    | nil => exact absurd rfl h
    | cons a t => simp
  constructor
  · have hidx : (alt.enum.foldl
        (compareStep env (imageSift env ref false) (imageSift env ref true) ref.created)
        (0, 0)).1 < alt.length := by
      apply compareFold_fst_lt
      · exact hlen
      · intro p hp
        have hm := mem_of_mem_enumFrom alt 0 p (by simpa [List.enum] using hp)
        omega
    refine ⟨alt.get ⟨_, hidx⟩, List.get_mem _ _ _, ?_⟩
    show (compareRun env ref alt).1.1 = _
    rw [compareRun, if_neg (by simp [hne])]
    exact List.get?_eq_get hidx
  constructor
  · rfl
  · intro hz
    have hze : ∀ p ∈ alt.enum, candScore env (imageSift env ref false) (imageSift env ref true)
        (env.extract (env.raster p.2)) = 0 := by
      intro p hp
      have hm := mem_of_mem_enumFrom alt 0 p (by simpa [List.enum] using hp)
      exact hz p.2 hm.2.2
    have hfold := compareFold_zero env (imageSift env ref false) (imageSift env ref true)
      ref.created alt.enum 0 hze
    show (compareRun env ref alt).1 = _
    rw [compareRun, if_neg (by simp [hne])]
    simp only [hfold]

/-- Closed witness for `compareBest_nonempty` at a concrete input. -/
theorem compareBest_nonempty_witness :
    ([altSub1] ≠ ([] : List Subm)) ∧
    ((∃ c ∈ [altSub1], (compareBest envZero sub0 [altSub1]).1 = some c) ∧
    (compareBest envZero sub0 ([] : List Subm)).1 = none ∧
    ((∀ c ∈ [altSub1], candScore envZero (imageSift envZero sub0 false)
        (imageSift envZero sub0 true) (envZero.extract (envZero.raster c)) = 0) →
      compareBest envZero sub0 [altSub1] =
        ([altSub1].get? ((([altSub1].enum.filter
            (fun p => decide (DATE_THRESHOLD < sub0.created - p.2.created))).getLast?.map
              Prod.fst).getD 0), 0))) :=
  ⟨by simp, compareBest_nonempty envZero sub0 [altSub1] (by simp)⟩

/-- C5 counterexample: a 100 x 2000 raster is returned unchanged, because
the loop of `ImageObject.cv` tests `min(image.shape) > 512`, so it never
runs when the smaller dimension is already at most 512 — the returned
raster keeps a dimension of 2000 > 512 pixels. -/
theorem cvLoop_wide_stays_wide :
    cvLoop (100, 2000) = (100, 2000) ∧ ¬((cvLoop (100, 2000)).2 ≤ 512) := by
  have h : cvLoop (100, 2000) = (100, 2000) := by
    rw [cvLoop]
    norm_num [min_def]
  exact ⟨h, by rw [h]; norm_num⟩

/-- C5 amended: the normalization halves both dimensions while BOTH exceed
512 pixels, so in the returned raster the smaller of the two dimensions is
at most 512 (the larger may remain above 512). -/
theorem cvLoop_min_le : ∀ (a b : Nat), min (cvLoop (a, b)).1 (cvLoop (a, b)).2 ≤ 512 := by
  intro a
  induction a using Nat.strong_induction_on with
  | _ a ih =>
      intro b
      by_cases h : 512 < min a b
      · have ha : 512 < a := lt_of_lt_of_le h (min_le_left _ _)
        rw [cvLoop]
        simp only [h, if_true]
        exact ih (a / 2) (by omega) (b / 2)
      · rw [cvLoop]
        simp only [h, if_false]
        exact Nat.not_lt.mp h

/-- C3 counterexample: on an empty activity window the Count component is
exactly 0.5, not 0.0 as claimed (`exp(-3 * 0/50) - 0.5 = 0.5`). -/
theorem suspicion_empty_count_nonzero :
    Suspicion.score_count susEmpty = 1/2 ∧ (1/2 : ℝ) ≠ 0 := by
  constructor
  · simp [Suspicion.score_count, susEmpty, Real.exp_zero]
    norm_num
  · norm_num

/-- C3 amended: an unfetchable account yields an empty window and the
scorer (total in this embedding, as in Python where the constructor
catches the fetch error) evaluates Age and Dormancy to 0.0 and
WatchlistHit to 0.0, while Count evaluates to 0.5 and ImageDensity to
`logistic(-3)` (about 0.047). -/
theorem suspicion_empty_window (s : Suspicion) (now : Rat) (numOld numNew : Nat)
    (h : s.items = []) (hl : 0 < s.limit) :
    s.score_age now = 0 ∧ s.score_dormancy numOld numNew = 0 ∧
    s.score_count = 1/2 ∧ s.score_images = logistic (-3) ∧ s.score_scum = 0 := by
  have hE : s.items.isEmpty = true := by simp [h]
  refine ⟨?_, ?_, ?_, ?_, ?_⟩
  · simp [Suspicion.score_age, hE]
  · simp [Suspicion.score_dormancy, hE]
  · simp [Suspicion.score_count, h, Real.exp_zero]
    norm_num
  · have hmin : min s.limit (1 + ([] : List Subm).length) = 1 := by
      simp
      omega
    simp only [Suspicion.score_images, h, List.foldl_nil, hmin]
    norm_num
  · simp [Suspicion.score_scum, h]

/-- Closed witness for `suspicion_empty_window` at the concrete state
`susEmpty`. -/
theorem suspicion_empty_window_witness :
    (susEmpty.items = [] ∧ 0 < susEmpty.limit) ∧
    (susEmpty.score_age 0 = 0 ∧ susEmpty.score_dormancy 1 1 = 0 ∧
      susEmpty.score_count = 1/2 ∧ susEmpty.score_images = logistic (-3) ∧
      susEmpty.score_scum = 0) :=
  ⟨⟨rfl, by decide⟩, suspicion_empty_window susEmpty 0 1 1 rfl (by decide)⟩

theorem logistic_pos (x : ℝ) : 0 < logistic x := by
  unfold logistic
  positivity

theorem logistic_lt_one (x : ℝ) : logistic x < 1 := by
  unfold logistic
  rw [div_lt_one (by positivity)]
  have := Real.exp_pos (-x)
  linarith

theorem natCast_div_le_one (g n : Nat) (h : g ≤ n) : (g : Rat) / (n : Rat) ≤ 1 := by
  rcases Nat.eq_zero_or_pos n with h0 | hp
  · subst h0
    have hg : g = 0 := Nat.le_zero.mp h
    subst hg
    norm_num
  · rw [div_le_one (by exact_mod_cast hp)]
    exact_mod_cast h

theorem goodCount_le_of_len {D : Type} (env : CmpEnv D) (q d : List D)
    (hknn : (env.knn q d).length = q.length) : goodCount (env.knn q d) ≤ q.length := by
  unfold goodCount
  calc (List.filter (fun m => decide (m.dBest < 7/10 * m.dSecond)) (env.knn q d)).length
      ≤ (env.knn q d).length := List.length_filter_le _ _
    _ = q.length := hknn

theorem candScore_nonneg {D : Type} (env : CmpEnv D) (d1 d2 da : List D) :
    0 ≤ candScore env d1 d2 da := by
  unfold candScore
  exact le_trans (by positivity) (le_max_left _ _)

theorem candScore_le_one {D : Type} (env : CmpEnv D) (d1 d2 da : List D)
    (hk1 : (env.knn d1 da).length = d1.length) (hk2 : (env.knn d2 da).length = d2.length) :
    candScore env d1 d2 da ≤ 1 := by
  unfold candScore
  exact max_le (natCast_div_le_one _ _ (goodCount_le_of_len env d1 da hk1))
    (natCast_div_le_one _ _ (goodCount_le_of_len env d2 da hk2))

theorem compareFold_snd_mem {D : Type} (env : CmpEnv D) (d1 d2 : List D) (rd : Rat) :
    ∀ (l : List (Nat × Subm)) (st : Nat × Rat),
      0 ≤ st.2 → st.2 ≤ 1 →
      (∀ p ∈ l, 0 ≤ candScore env d1 d2 (env.extract (env.raster p.2)) ∧
        candScore env d1 d2 (env.extract (env.raster p.2)) ≤ 1) →
      0 ≤ (l.foldl (compareStep env d1 d2 rd) st).2 ∧
        (l.foldl (compareStep env d1 d2 rd) st).2 ≤ 1 := by
  intro l
  induction l with
  | nil => intro st h0 h1 _; exact ⟨h0, h1⟩
  | cons p t ih =>
      intro st h0 h1 hall
      rw [List.foldl_cons]
      rcases compareStep_cases env d1 d2 rd st p with hs | hs <;> rw [hs]
      · exact ih _ (hall p (List.mem_cons_self p t)).1 (hall p (List.mem_cons_self p t)).2
          (fun q hq => hall q (List.mem_cons_of_mem _ hq))
      · exact ih _ h0 h1 (fun q hq => hall q (List.mem_cons_of_mem _ hq))

theorem compareBest_conf_mem {D : Type} (env : CmpEnv D) (ref : Subm) (alt : List Subm)
    (hknn : ∀ q d : List D, (env.knn q d).length = q.length) :
    0 ≤ (compareBest env ref alt).2 ∧ (compareBest env ref alt).2 ≤ 1 := by
  cases alt with
  | nil => constructor <;> norm_num [compareBest, compareRun]
  | cons a t =>
      show 0 ≤ (compareRun env ref (a :: t)).1.2 ∧ (compareRun env ref (a :: t)).1.2 ≤ 1
      rw [compareRun, if_neg (by simp)]
      exact compareFold_snd_mem env _ _ ref.created ((a :: t).enum) (0, 0) (le_refl 0)
        zero_le_one
        (fun p _ => ⟨candScore_nonneg env _ _ _,
          candScore_le_one env _ _ _ (hknn _ _) (hknn _ _)⟩)

theorem score_age_mem (s : Suspicion) (now : Rat) (hc : s.userCreated ≤ now) :
    0 ≤ s.score_age now ∧ s.score_age now ≤ 1 := by
  unfold Suspicion.score_age
  split
  · norm_num
  · have hr : (0:ℝ) ≤ ((now : ℝ) - (s.userCreated : ℝ)) / (180 * 86400) := by
      have : (s.userCreated : ℝ) ≤ (now : ℝ) := by exact_mod_cast hc
      exact div_nonneg (by linarith) (by norm_num)
    constructor
    · exact le_of_lt (Real.exp_pos _)
    · calc Real.exp (-3 * (((now : ℝ) - (s.userCreated : ℝ)) / (180 * 86400)))
          ≤ Real.exp 0 := Real.exp_le_exp.mpr (by nlinarith)
        _ = 1 := Real.exp_zero

theorem score_count_mem (s : Suspicion) (hl : 0 < s.limit) (hcount : s.items.length ≤ s.limit) :
    Real.exp (-3) - 1/2 ≤ s.score_count ∧ s.score_count ≤ 1/2 := by
  unfold Suspicion.score_count
  have hlim : (0:ℝ) < (s.limit : ℝ) := by exact_mod_cast hl
  have hr0 : (0:ℝ) ≤ (s.items.length : ℝ) / (s.limit : ℝ) := by positivity
  have hr1 : (s.items.length : ℝ) / (s.limit : ℝ) ≤ 1 := by
    rw [div_le_one hlim]
    exact_mod_cast hcount
  constructor
  · have : Real.exp (-3) ≤ Real.exp (-3 * ((s.items.length : ℝ) / (s.limit : ℝ))) :=
      Real.exp_le_exp.mpr (by nlinarith)
    linarith
  · have : Real.exp (-3 * ((s.items.length : ℝ) / (s.limit : ℝ))) ≤ Real.exp 0 :=
      Real.exp_le_exp.mpr (by nlinarith)
    rw [Real.exp_zero] at this
    linarith

theorem score_dormancy_mem (s : Suspicion) (numOld numNew : Nat) :
    0 ≤ s.score_dormancy numOld numNew ∧ s.score_dormancy numOld numNew ≤ 1 := by
  unfold Suspicion.score_dormancy
  split
  · norm_num
  · exact ⟨le_of_lt (logistic_pos _), le_of_lt (logistic_lt_one _)⟩

theorem score_images_mem (s : Suspicion) : 0 ≤ s.score_images ∧ s.score_images ≤ 1 := by
  unfold Suspicion.score_images
  exact ⟨le_of_lt (logistic_pos _), le_of_lt (logistic_lt_one _)⟩

theorem score_scum_mem (s : Suspicion) : 0 ≤ s.score_scum ∧ s.score_scum ≤ 1 := by
  unfold Suspicion.score_scum
  split <;> norm_num

theorem score_overall_mem (s : Suspicion) (now : Rat) (numOld numNew : Nat) :
    0 ≤ s.score_overall now numOld numNew ∧ s.score_overall now numOld numNew ≤ 1 := by
  unfold Suspicion.score_overall
  exact ⟨le_of_lt (logistic_pos _), le_of_lt (logistic_lt_one _)⟩

/-- C6 amended: for every account state observed at or after its creation
time, with a positive window limit, a window no larger than the limit, a
positive lifetime top-content count, and a k-NN matcher that answers once
per query descriptor, the Age, Dormancy, ImageDensity and WatchlistHit
components, the overall suspicion score, and the Matcher confidence all
lie in [0,1]; the Count component instead lies in
[exp(-3) - 1/2, 1/2] and in particular can be negative. -/
theorem all_scores_in_range (s : Suspicion) (now : Rat) (numOld numNew : Nat)
    {D : Type} (env : CmpEnv D) (ref : Subm) (alt : List Subm)
    (hc : s.userCreated ≤ now) (hl : 0 < s.limit) (hcount : s.items.length ≤ s.limit)
    (_hOld : 0 < numOld) (hknn : ∀ q d : List D, (env.knn q d).length = q.length) :
    (0 ≤ s.score_age now ∧ s.score_age now ≤ 1) ∧
    (Real.exp (-3) - 1/2 ≤ s.score_count ∧ s.score_count ≤ 1/2) ∧
    (0 ≤ s.score_dormancy numOld numNew ∧ s.score_dormancy numOld numNew ≤ 1) ∧
    (0 ≤ s.score_images ∧ s.score_images ≤ 1) ∧
    (0 ≤ s.score_scum ∧ s.score_scum ≤ 1) ∧
    (0 ≤ s.score_overall now numOld numNew ∧ s.score_overall now numOld numNew ≤ 1) ∧
    (0 ≤ (compareBest env ref alt).2 ∧ (compareBest env ref alt).2 ≤ 1) :=
  ⟨score_age_mem s now hc, score_count_mem s hl hcount, score_dormancy_mem s numOld numNew,
    score_images_mem s, score_scum_mem s, score_overall_mem s now numOld numNew,
    compareBest_conf_mem env ref alt hknn⟩

/-- C6 counterexample: a full activity window (50 items, limit 50) makes
the Count component `exp(-3) - 1/2 < 0`, outside the claimed [0,1]. -/
theorem score_count_full_window_negative : Suspicion.score_count susFull < 0 := by
  unfold Suspicion.score_count
  have hlen : ((susFull.items).length : ℝ) = 50 := by simp [susFull]
  have hlim : ((susFull.limit) : ℝ) = 50 := by simp [susFull]
  rw [hlen, hlim]
  have h1 : (-3 : ℝ) * ((50:ℝ)/50) = -3 := by norm_num
  rw [h1]
  have h4 : (4:ℝ) ≤ Real.exp 3 := by
    have := Real.add_one_le_exp (3:ℝ)
    linarith
  have hexp : Real.exp (-3) ≤ 1/4 := by
    rw [Real.exp_neg]
    have h0 : (0:ℝ) < 4 := by norm_num
    calc (Real.exp 3)⁻¹ ≤ (4:ℝ)⁻¹ := inv_anti₀ h0 h4
      _ = 1/4 := by norm_num
  linarith

/-- Closed witness for `all_scores_in_range` at concrete inputs. -/
theorem all_scores_in_range_witness :
    (susEmpty.userCreated ≤ (0:Rat) ∧ 0 < susEmpty.limit ∧
      susEmpty.items.length ≤ susEmpty.limit ∧ 0 < 1 ∧
      (∀ q d : List Nat, (envLen.knn q d).length = q.length)) ∧
    ((0 ≤ susEmpty.score_age 0 ∧ susEmpty.score_age 0 ≤ 1) ∧
    (Real.exp (-3) - 1/2 ≤ susEmpty.score_count ∧ susEmpty.score_count ≤ 1/2) ∧
    (0 ≤ susEmpty.score_dormancy 1 1 ∧ susEmpty.score_dormancy 1 1 ≤ 1) ∧
    (0 ≤ susEmpty.score_images ∧ susEmpty.score_images ≤ 1) ∧
    (0 ≤ susEmpty.score_scum ∧ susEmpty.score_scum ≤ 1) ∧
    (0 ≤ susEmpty.score_overall 0 1 1 ∧ susEmpty.score_overall 0 1 1 ≤ 1) ∧
    (0 ≤ (compareBest envLen sub0 []).2 ∧ (compareBest envLen sub0 []).2 ≤ 1)) :=
  ⟨⟨by decide, by decide, by decide, by decide, fun q d => by simp [envLen]⟩,
    all_scores_in_range susEmpty 0 1 1 envLen sub0 [] (by decide) (by decide) (by decide)
      (by decide) (fun q d => by simp [envLen])⟩

theorem compareBest_fst_some {D : Type} (env : CmpEnv D) (ref : Subm) (alt : List Subm)
    (h : alt ≠ []) : ∃ c, (compareBest env ref alt).1 = some c := by
  cases alt with
  | nil => exact absurd rfl h
  | cons a t =>
      have hidx : ((a :: t).enum.foldl
          (compareStep env (imageSift env ref false) (imageSift env ref true) ref.created)
          (0, 0)).1 < (a :: t).length := by
        apply compareFold_fst_lt
        · simp
        · intro p hp
          have hm := mem_of_mem_enumFrom (a :: t) 0 p (by simpa [List.enum] using hp)
          omega
      refine ⟨(a :: t).get ⟨_, hidx⟩, ?_⟩
      show (compareRun env ref (a :: t)).1.1 = _
      rw [compareRun, if_neg (by simp)]
      exact List.get?_eq_get hidx

/-- C1 amended: when the post-confidence threshold is positive (as in the
deployed defaults), the Scanner emits a SpamVerdict if and only if the
post carries no prior vote (`likes` unset) or bot reply, the author
suspicion score reaches `thresh_user`, and the match confidence reaches
`thresh_post`; the emitted confidence is the arithmetic mean of the two
scores; and when the suspicion score is below `thresh_user` the Candidate
Search and Matcher stage is never invoked.  (With `thresh_post ≤ 0` and an
empty search result the code instead raises while formatting the message,
see the counterexample.) -/
theorem scan_emits_iff {D : Type} (cfg : ScanCfg) (env : CmpEnv D) (listing : List Subm)
    (sub : Subm) (replied : Bool) (usrScore : Rat) (hp : 0 < cfg.threshPost) :
    ((∃ v, (scan cfg env listing sub replied usrScore).1 = Except.ok (some v)) ↔
      (sub.likes = none ∧ replied = false ∧ cfg.threshUser ≤ usrScore ∧
        cfg.threshPost ≤ (compareBest env sub (search listing sub cfg.searchDepth)).2)) ∧
    (∀ v, (scan cfg env listing sub replied usrScore).1 = Except.ok (some v) →
      v.confidence =
        (usrScore + (compareBest env sub (search listing sub cfg.searchDepth)).2) / 2) ∧
    (usrScore < cfg.threshUser → (scan cfg env listing sub replied usrScore).2 = false) := by
  by_cases hlikes : sub.likes = none
  · by_cases hrep : replied = true
    · subst hrep
      have hres : scan cfg env listing sub true usrScore = (Except.ok none, false) := by
        simp [scan, hlikes]
      refine ⟨?_, ?_, ?_⟩ <;> simp [hres]
    · have hrepf : replied = false := Bool.not_eq_true replied |>.mp hrep
      subst hrepf
      by_cases husr : usrScore < cfg.threshUser
      · have hres : scan cfg env listing sub false usrScore = (Except.ok none, false) := by
          simp [scan, hlikes, husr]
        refine ⟨?_, ?_, ?_⟩ <;> simp [hres, husr, not_le.mpr husr]
      · have husr' : cfg.threshUser ≤ usrScore := not_lt.mp husr
        by_cases hpost : (compareBest env sub (search listing sub cfg.searchDepth)).2 <
            cfg.threshPost
        · have hres : scan cfg env listing sub false usrScore = (Except.ok none, true) := by
            simp [scan, hlikes, husr, hpost]
          refine ⟨?_, ?_, ?_⟩
          · simp [hres, not_le.mpr hpost]
          · simp [hres]
          · intro h; exact absurd h husr
        · have hpost' : cfg.threshPost ≤
              (compareBest env sub (search listing sub cfg.searchDepth)).2 := not_lt.mp hpost
          have halt : search listing sub cfg.searchDepth ≠ [] := by
            intro he
            rw [he] at hpost'
            have : (compareBest env sub ([] : List Subm)).2 = 0 := rfl
            rw [this] at hpost'
            exact absurd (lt_of_lt_of_le hp hpost') (lt_irrefl 0)
          obtain ⟨c, hc⟩ := compareBest_fst_some env sub _ halt
          have hres : scan cfg env listing sub false usrScore =
              (Except.ok (some ⟨sub.id, c.permalink,
                (usrScore + (compareBest env sub (search listing sub cfg.searchDepth)).2) / 2⟩),
               true) := by
            simp [scan, hlikes, husr, hpost, hc]
          refine ⟨?_, ?_, ?_⟩
          · constructor
            · intro _; exact ⟨hlikes, rfl, husr', hpost'⟩
            · intro _; exact ⟨_, by rw [hres]⟩
          · intro v hv
            rw [hres] at hv
            simp only [Except.ok.injEq, Option.some.injEq] at hv
            rw [← hv]
          · intro h; exact absurd h husr
  · have hres : scan cfg env listing sub replied usrScore = (Except.ok none, false) := by
      simp [scan, hlikes]
    refine ⟨?_, ?_, ?_⟩ <;> simp [hres, hlikes]

/-- C1 counterexample: with both thresholds 0 and an empty search listing,
every condition of the claim holds (no prior vote or reply, suspicion
0 >= 0, confidence 0 >= 0) yet no verdict is emitted: the scan raises
(`alt_img.permalink` with `alt_img = None`). -/
theorem scan_zero_threshold_raises :
    (scan cfgZero env0 [] sub0 false 0).1 = Except.error () ∧
    sub0.likes = none ∧
    cfgZero.threshUser ≤ (0:Rat) ∧
    cfgZero.threshPost ≤ (compareBest env0 sub0 (search [] sub0 cfgZero.searchDepth)).2 := by
  refine ⟨?_, rfl, le_refl 0, le_refl 0⟩
  rfl

/-- Closed witness for `scan_emits_iff` at the default configuration. -/
theorem scan_emits_iff_witness :
    (0 < cfgHalf.threshPost) ∧
    (((∃ v, (scan cfgHalf env0 [] sub0 false 0).1 = Except.ok (some v)) ↔
      (sub0.likes = none ∧ false = false ∧ cfgHalf.threshUser ≤ 0 ∧
        cfgHalf.threshPost ≤ (compareBest env0 sub0 (search [] sub0 cfgHalf.searchDepth)).2)) ∧
    (∀ v, (scan cfgHalf env0 [] sub0 false 0).1 = Except.ok (some v) →
      v.confidence = (0 + (compareBest env0 sub0 (search [] sub0 cfgHalf.searchDepth)).2) / 2) ∧
    ((0:Rat) < cfgHalf.threshUser → (scan cfgHalf env0 [] sub0 false 0).2 = false)) :=
  ⟨by norm_num [cfgHalf], scan_emits_iff cfgHalf env0 [] sub0 false 0 (by norm_num [cfgHalf])⟩

theorem mem_of_head? {α : Type} {l : List α} {c : α} (h : l.head? = some c) : c ∈ l := by
  cases l with
  | nil => simp at h
  | cons a t =>
      simp only [List.head?_cons, Option.some.injEq] at h
      exact h ▸ List.mem_cons_self _ _

theorem mem_of_getLast? {α : Type} [DecidableEq α] : ∀ {l : List α} {c : α}, l.getLast? = some c → c ∈ l := by
  intro l
  induction l with
  | nil => intro c h; simp at h
  | cons a t ih =>
      intro c h
      rw [getLast?_cons_cases] at h
      by_cases ht : t = []
      · rw [if_pos ht] at h
        simp only [Option.some.injEq] at h
        exact h ▸ List.mem_cons_self _ _
      · rw [if_neg ht] at h
        exact List.mem_cons_of_mem _ (ih h)

theorem space_not_keep : ∀ c : Char, pyIsSpace c = true → keepChar c = false := by
  intro c h
  simp only [pyIsSpace, Bool.or_eq_true, beq_iff_eq] at h
  rcases h with ((((h | h) | h) | h) | h) | h <;> subst h <;> decide

theorem keep_not_space : ∀ c : Char, keepChar c = true → pyIsSpace c = false := by
  intro c hk
  cases hsp : pyIsSpace c with
  | false => rfl
  | true => rw [space_not_keep c hsp] at hk; exact absurd hk (by simp)

theorem noTwoBad_build (bad : Char → Bool) (c : Char) (l : List Char)
    (h1 : ∀ d, l.head? = some d → (bad c && bad d) = false) (h2 : noTwoBad bad l = true) :
    noTwoBad bad (c :: l) = true := by
  cases l with
  | nil => rfl
  | cons d t =>
      simp only [noTwoBad, Bool.and_eq_true, Bool.not_eq_true']
      exact ⟨h1 d rfl, h2⟩

theorem noTwoBad_destruct (bad : Char → Bool) (c : Char) (l : List Char)
    (h : noTwoBad bad (c :: l) = true) :
    (∀ d, l.head? = some d → (bad c && bad d) = false) ∧ noTwoBad bad l = true := by
  cases l with
  | nil => exact ⟨fun d hd => by simp at hd, rfl⟩
  | cons d t =>
      simp only [noTwoBad, Bool.and_eq_true, Bool.not_eq_true'] at h
      exact ⟨fun e he => by simp only [List.head?_cons, Option.some.injEq] at he; exact he ▸ h.1,
        h.2⟩

theorem noTwoBad_mono (bad1 bad2 : Char → Bool) :
    ∀ l : List Char, (∀ c ∈ l, bad1 c = true → bad2 c = true) →
      noTwoBad bad2 l = true → noTwoBad bad1 l = true := by
  intro l
  induction l with
  | nil => intro _ _; rfl
  | cons c t ih =>
      intro himp h
      rcases noTwoBad_destruct bad2 c t h with ⟨hp, ht⟩
      refine noTwoBad_build bad1 c t ?_ (ih (fun x hx => himp x (List.mem_cons_of_mem _ hx)) ht)
      intro d hd
      cases h1 : bad1 c with
      | false => simp
      | true =>
          cases h2 : bad1 d with
          | false => simp
          | true =>
              have hc2 : bad2 c = true := himp c (List.mem_cons_self _ _) h1
              have hd2 : bad2 d = true := himp d (List.mem_cons_of_mem _ (mem_of_head? hd)) h2
              have := hp d hd
              rw [hc2, hd2] at this
              simp at this

theorem collapseRuns_all_bad (bad : Char → Bool) :
    ∀ l : List Char, collapseRuns bad true l = [] → ∀ c ∈ l, bad c = true := by
  intro l
  induction l with
  | nil => intro _ c hc; simp at hc
  | cons a t ih =>
      intro h c hc
      cases hb : bad a with
      | false => rw [collapseRuns, hb] at h; simp at h
      | true =>
          rw [collapseRuns, hb] at h
          simp only [if_true] at h
          rcases List.mem_cons.mp hc with hc | hc
          · exact hc ▸ hb
          · exact ih h c hc

theorem collapseRuns_head_true (bad : Char → Bool) :
    ∀ (l : List Char) (c : Char) (cs : List Char),
      collapseRuns bad true l = c :: cs → bad c = false := by
  intro l
  induction l with
  | nil => intro c cs h; simp [collapseRuns] at h
  | cons a t ih =>
      intro c cs h
      cases hb : bad a with
      | false =>
          rw [collapseRuns, hb] at h
          simp only [Bool.false_eq_true, if_false, List.cons.injEq] at h
          exact h.1 ▸ hb
      | true =>
          rw [collapseRuns, hb] at h
          simp only [if_true] at h
          exact ih c cs h

theorem collapseRuns_mem (bad : Char → Bool) :
    ∀ (b : Bool) (l : List Char) (c : Char),
      c ∈ collapseRuns bad b l → c = ' ' ∨ (c ∈ l ∧ bad c = false) := by
  intro b l
  induction l generalizing b with
  | nil => intro c hc; simp [collapseRuns] at hc
  | cons a t ih =>
      intro c hc
      cases hb : bad a with
      | false =>
          rw [collapseRuns, hb] at hc
          simp only [Bool.false_eq_true, if_false] at hc
          rcases List.mem_cons.mp hc with hc | hc
          · exact Or.inr ⟨hc ▸ List.mem_cons_self _ _, hc ▸ hb⟩
          · rcases ih false c hc with h | ⟨hm, hbc⟩
            · exact Or.inl h
            · exact Or.inr ⟨List.mem_cons_of_mem _ hm, hbc⟩
      | true =>
          rw [collapseRuns, hb] at hc
          simp only [if_true] at hc
          cases b with
          | true =>
              rcases ih true c hc with h | ⟨hm, hbc⟩
              · exact Or.inl h
              · exact Or.inr ⟨List.mem_cons_of_mem _ hm, hbc⟩
          | false =>
              rcases List.mem_cons.mp hc with hc | hc
              · exact Or.inl hc
              · rcases ih true c hc with h | ⟨hm, hbc⟩
                · exact Or.inl h
                · exact Or.inr ⟨List.mem_cons_of_mem _ hm, hbc⟩

theorem collapseRuns_noTwoBad (bad : Char → Bool) :
    ∀ (b : Bool) (l : List Char), noTwoBad bad (collapseRuns bad b l) = true := by
  intro b l
  induction l generalizing b with
  | nil => rfl
  | cons a t ih =>
      cases hb : bad a with
      | false =>
          rw [collapseRuns, hb]
          simp only [Bool.false_eq_true, if_false]
          refine noTwoBad_build bad a _ ?_ (ih false)
          intro d hd
          rw [hb]
          simp
      | true =>
          rw [collapseRuns, hb]
          simp only [if_true]
          cases b with
          | true => exact ih true
          | false =>
              refine noTwoBad_build bad ' ' _ ?_ (ih true)
              intro d hd
              have hdgood : bad d = false := by
                rcases hcol : collapseRuns bad true t with _ | ⟨e, r⟩
                · rw [hcol] at hd; simp at hd
                · rw [hcol] at hd
                  simp only [List.head?_cons, Option.some.injEq] at hd
                  exact hd ▸ collapseRuns_head_true bad t e r hcol
              rw [hdgood]
              simp

theorem collapseRuns_head?_eq (bad : Char → Bool) (l : List Char)
    (hh : ∀ c, l.head? = some c → bad c = false) :
    (collapseRuns bad false l).head? = l.head? := by
  cases l with
  | nil => rfl
  | cons a t =>
      have hba : bad a = false := hh a rfl
      rw [collapseRuns, hba]
      simp

theorem collapseRuns_getLast_bad (bad : Char → Bool) :
    ∀ (l : List Char) (b : Bool) (c : Char),
      (collapseRuns bad b l).getLast? = some c → bad c = true →
      ∃ d, l.getLast? = some d ∧ bad d = true := by
  intro l
  induction l with
  | nil => intro b c h _; simp [collapseRuns] at h
  | cons a t ih =>
      intro b c h hbadc
      cases hb : bad a with
      | false =>
          rw [collapseRuns, hb] at h
          simp only [Bool.false_eq_true, if_false] at h
          rw [getLast?_cons_cases] at h
          by_cases hout : collapseRuns bad false t = []
          · rw [if_pos hout] at h
            simp only [Option.some.injEq] at h
            rw [← h] at hbadc
            rw [hbadc] at hb
            simp at hb
          · rw [if_neg hout] at h
            have hne : t ≠ [] := by
              intro he
              rw [he] at hout
              exact hout rfl
            rcases ih false c h hbadc with ⟨d, hd, hbd⟩
            refine ⟨d, ?_, hbd⟩
            rw [getLast?_cons_cases, if_neg hne]
            exact hd
      | true =>
          rw [collapseRuns, hb] at h
          cases b with
          | true =>
              simp only [if_true] at h
              rcases hout : collapseRuns bad true t with _ | ⟨e, r⟩
              · rw [hout] at h; simp at h
              · have hne : t ≠ [] := by
                  intro he
                  rw [he] at hout
                  simp [collapseRuns] at hout
                rcases ih true c h hbadc with ⟨d, hd, hbd⟩
                refine ⟨d, ?_, hbd⟩
                rw [getLast?_cons_cases, if_neg hne]
                exact hd
          | false =>
              simp only [Bool.false_eq_true, if_false, if_true, ite_true, ite_false] at h
              rw [getLast?_cons_cases] at h
              by_cases hout : collapseRuns bad true t = []
              · rw [if_pos hout] at h
                by_cases ht : t = []
                · subst ht
                  exact ⟨a, rfl, hb⟩
                · have hlast : ∃ d, t.getLast? = some d := by
                    rcases hl : t.getLast? with _ | d
                    · exact absurd (List.getLast?_eq_none_iff.mp hl) ht
                    · exact ⟨d, rfl⟩
                  rcases hlast with ⟨d, hd⟩
                  refine ⟨d, ?_, ?_⟩
                  · rw [getLast?_cons_cases, if_neg ht]
                    exact hd
                  · exact collapseRuns_all_bad bad t hout d (mem_of_getLast? hd)
              · rw [if_neg hout] at h
                have hne : t ≠ [] := by
                  intro he
                  rw [he] at hout
                  exact hout rfl
                rcases ih true c h hbadc with ⟨d, hd, hbd⟩
                refine ⟨d, ?_, hbd⟩
                rw [getLast?_cons_cases, if_neg hne]
                exact hd

theorem collapseRuns_id (bad : Char → Bool) :
    ∀ l : List Char, (∀ c ∈ l, bad c = true → c = ' ') → noTwoBad bad l = true →
      collapseRuns bad false l = l := by
  intro l
  induction l with
  | nil => intro _ _; rfl
  | cons a t ih =>
      intro hchars hnt
      rcases noTwoBad_destruct bad a t hnt with ⟨hpair, htail⟩
      have hchart : ∀ c ∈ t, bad c = true → c = ' ' :=
        fun c hc => hchars c (List.mem_cons_of_mem _ hc)
      cases hb : bad a with
      | false =>
          rw [collapseRuns, hb]
          simp only [Bool.false_eq_true, if_false]
          rw [ih hchart htail]
      | true =>
          have ha : a = ' ' := hchars a (List.mem_cons_self _ _) hb
          rw [collapseRuns, hb]
          simp only [if_true]
          rw [ha]
          cases t with
          | nil => rfl
          | cons d r =>
              have hbd : bad d = false := by
                have := hpair d rfl
                rw [hb] at this
                simpa using this
              rw [collapseRuns, hbd]
              simp only [Bool.false_eq_true, if_false]
              have := ih hchart htail
              rw [collapseRuns, hbd] at this
              simp only [Bool.false_eq_true, if_false, List.cons.injEq] at this
              rw [this.2]

theorem dropWhile_head?_not {p : Char → Bool} :
    ∀ {l : List Char} {c : Char}, (l.dropWhile p).head? = some c → p c = false := by
  intro l
  induction l with
  | nil => intro c h; simp at h
  | cons a t ih =>
      intro c h
      cases hp : p a with
      | true => rw [List.dropWhile_cons, hp] at h; simp only [if_true] at h; exact ih h
      | false =>
          rw [List.dropWhile_cons, hp] at h
          simp only [Bool.false_eq_true, if_false, List.head?_cons, Option.some.injEq] at h
          exact h ▸ hp

theorem dropWhile_mem {p : Char → Bool} : ∀ {l : List Char} {c : Char},
    c ∈ l.dropWhile p → c ∈ l := by
  intro l
  induction l with
  | nil => intro c h; simp at h
  | cons a t ih =>
      intro c h
      rw [List.dropWhile_cons] at h
      by_cases hp : p a = true
      · rw [if_pos hp] at h
        exact List.mem_cons_of_mem _ (ih h)
      · rw [if_neg hp] at h
        exact h

theorem dropWhile_noTwoBad (bad p : Char → Bool) :
    ∀ l : List Char, noTwoBad bad l = true → noTwoBad bad (l.dropWhile p) = true := by
  intro l
  induction l with
  | nil => intro _; rfl
  | cons a t ih =>
      intro h
      cases hp : p a with
      | true =>
          rw [List.dropWhile_cons, hp]
          simp only [if_true]
          exact ih (noTwoBad_destruct bad a t h).2
      | false =>
          rw [List.dropWhile_cons, hp]
          simpa using h

theorem dropWhile_id (p : Char → Bool) (l : List Char)
    (hh : ∀ c, l.head? = some c → p c = false) : l.dropWhile p = l := by
  cases l with
  | nil => rfl
  | cons a t =>
      rw [List.dropWhile_cons, hh a rfl]
      simp

theorem dropTrailingWs_mem : ∀ {l : List Char} {c : Char}, c ∈ dropTrailingWs l → c ∈ l := by
  intro l
  induction l with
  | nil => intro c h; simp [dropTrailingWs] at h
  | cons a t ih =>
      intro c h
      rw [dropTrailingWs] at h
      by_cases hc : (dropTrailingWs t).isEmpty && pyIsSpace a
      · rw [if_pos hc] at h; simp at h
      · rw [if_neg hc] at h
        rcases List.mem_cons.mp h with h | h
        · exact h ▸ List.mem_cons_self _ _
        · exact List.mem_cons_of_mem _ (ih h)

theorem dropTrailingWs_head? : ∀ {l : List Char} {c : Char},
    (dropTrailingWs l).head? = some c → l.head? = some c := by
  intro l
  induction l with
  | nil => intro c h; simp [dropTrailingWs] at h
  | cons a t =>
      intro c h
      rw [dropTrailingWs] at h
      by_cases hc : (dropTrailingWs t).isEmpty && pyIsSpace a
      · rw [if_pos hc] at h; simp at h
      · rw [if_neg hc] at h
        simpa using h

theorem dropTrailingWs_getLast_not : ∀ {l : List Char} {c : Char},
    (dropTrailingWs l).getLast? = some c → pyIsSpace c = false := by
  intro l
  induction l with
  | nil => intro c h; simp [dropTrailingWs] at h
  | cons a t ih =>
      intro c h
      rw [dropTrailingWs] at h
      by_cases hc : (dropTrailingWs t).isEmpty && pyIsSpace a
      · rw [if_pos hc] at h; simp at h
      · rw [if_neg hc, getLast?_cons_cases] at h
        by_cases hr : dropTrailingWs t = []
        · rw [if_pos hr] at h
          simp only [Option.some.injEq] at h
          have hr2 : (dropTrailingWs t).isEmpty = true := by rw [hr]; rfl
          cases hsp : pyIsSpace a with
          | false => exact h ▸ hsp
          | true => exact absurd (by rw [hr2, hsp]; rfl) hc
        · rw [if_neg hr] at h
          exact ih h

theorem dropTrailingWs_noTwoBad (bad : Char → Bool) :
    ∀ l : List Char, noTwoBad bad l = true → noTwoBad bad (dropTrailingWs l) = true := by
  intro l
  induction l with
  | nil => intro _; rfl
  | cons a t ih =>
      intro h
      rcases noTwoBad_destruct bad a t h with ⟨hpair, htail⟩
      rw [dropTrailingWs]
      by_cases hc : (dropTrailingWs t).isEmpty && pyIsSpace a
      · rw [if_pos hc]; rfl
      · rw [if_neg hc]
        refine noTwoBad_build bad a _ ?_ (ih htail)
        intro d hd
        exact hpair d (dropTrailingWs_head? hd)

theorem dropTrailingWs_id : ∀ l : List Char,
    (∀ c, l.getLast? = some c → pyIsSpace c = false) → dropTrailingWs l = l := by
  intro l
  induction l with
  | nil => intro _; rfl
  | cons a t ih =>
      intro hlast
      rw [dropTrailingWs]
      by_cases ht : t = []
      · subst ht
        have ha : pyIsSpace a = false := hlast a rfl
        rw [dropTrailingWs]
        simp [ha]
      · have htr : dropTrailingWs t = t := by
          apply ih
          intro c hc
          apply hlast
          rw [getLast?_cons_cases, if_neg ht]
          exact hc
        rw [htr]
        have hne : t.isEmpty = false := by
          cases t with
          | nil => exact absurd rfl ht
          | cons x r => rfl
        rw [hne]
        simp

theorem normalizeQuery_normalized (tr : List Char → List Char) (t : List Char) :
    NormalizedStr (normalizeQuery tr t) := by
  unfold NormalizedStr normalizeQuery
  have hcharsl1 : ∀ c ∈ collapseRuns badW false (tr t), keepChar c = true ∨ c = ' ' := by
    intro c hc
    rcases collapseRuns_mem badW false (tr t) c hc with h | ⟨_, hb⟩
    · exact Or.inr h
    · left
      unfold badW at hb
      simpa using hb
  have hcharsm : ∀ c ∈ pyStrip (collapseRuns badW false (tr t)), keepChar c = true ∨ c = ' ' := by
    intro c hc
    exact hcharsl1 c (dropWhile_mem (dropTrailingWs_mem hc))
  have hcharsn : ∀ c ∈ collapseRuns pyIsSpace false (pyStrip (collapseRuns badW false (tr t))),
      keepChar c = true ∨ c = ' ' := by
    intro c hc
    rcases collapseRuns_mem pyIsSpace false _ c hc with h | ⟨hm, _⟩
    · exact Or.inr h
    · exact hcharsm c hm
  have hntsp : noTwoBad pyIsSpace
      (collapseRuns pyIsSpace false (pyStrip (collapseRuns badW false (tr t)))) = true :=
    collapseRuns_noTwoBad pyIsSpace false _
  have hheadm : ∀ c, (pyStrip (collapseRuns badW false (tr t))).head? = some c →
      pyIsSpace c = false := by
    intro c hc
    exact dropWhile_head?_not (dropTrailingWs_head? hc)
  refine ⟨hcharsn, ?_, ?_, ?_⟩
  · refine noTwoBad_mono badW pyIsSpace _ ?_ hntsp
    intro c hc hb
    rcases hcharsn c hc with hk | hs
    · unfold badW at hb
      rw [hk] at hb
      exact absurd hb (by simp)
    · rw [hs]
      decide
  · intro c hc
    have hhn := collapseRuns_head?_eq pyIsSpace _ hheadm
    rw [hhn] at hc
    have hnsp : pyIsSpace c = false := hheadm c hc
    rcases hcharsm c (mem_of_head? hc) with hk | hs
    · exact hk
    · rw [hs] at hnsp
      exact absurd hnsp (by decide)
  · intro c hc
    cases hk : keepChar c with
    | true => rfl
    | false =>
        have hcs : c = ' ' := by
          rcases hcharsn c (mem_of_getLast? hc) with h | h
          · rw [hk] at h; exact absurd h (by simp)
          · exact h
        have hsp : pyIsSpace c = true := by rw [hcs]; decide
        rcases collapseRuns_getLast_bad pyIsSpace _ false c hc hsp with ⟨d, hd, hbd⟩
        rw [dropTrailingWs_getLast_not hd] at hbd
        exact absurd hbd (by simp)

theorem normalizeQuery_fixed (tr : List Char → List Char)
    (htr : ∀ l, (∀ c ∈ l, keepChar c = true ∨ c = ' ') → tr l = l)
    (n : List Char) (hn : NormalizedStr n) : normalizeQuery tr n = n := by
  obtain ⟨hchars, hnt, hhead, hlast⟩ := hn
  unfold normalizeQuery
  rw [htr n hchars]
  have h2 : collapseRuns badW false n = n := by
    apply collapseRuns_id
    · intro c hc hb
      rcases hchars c hc with hk | hs
      · unfold badW at hb
        rw [hk] at hb
        exact absurd hb (by simp)
      · exact hs
    · exact hnt
  rw [h2]
  have h3 : pyStrip n = n := by
    unfold pyStrip
    rw [dropWhile_id pyIsSpace n (fun c hc => keep_not_space c (hhead c hc))]
    exact dropTrailingWs_id n (fun c hc => keep_not_space c (hlast c hc))
  rw [h3]
  apply collapseRuns_id
  · intro c hc hs
    rcases hchars c hc with hk | h
    · rw [keep_not_space c hk] at hs
      exact absurd hs (by simp)
    · exact h
  · refine noTwoBad_mono pyIsSpace badW n ?_ hnt
    intro c _ hs
    unfold badW
    rw [space_not_keep c hs]
    rfl

/-- C7: the title-query normalization is idempotent.  The transliteration
step (`unidecode`) is a parameter `tr`, assumed to leave strings made of
whitelist characters and spaces unchanged, which holds of `unidecode` on
its ASCII-only output; the remaining steps are embedded from the source.
Normalizing an already-normalized title returns the identical string. -/
theorem normalizeQuery_idempotent (tr : List Char → List Char)
    (htr : ∀ l, (∀ c ∈ l, keepChar c = true ∨ c = ' ') → tr l = l) (t : List Char) :
    normalizeQuery tr (normalizeQuery tr t) = normalizeQuery tr t :=
  normalizeQuery_fixed tr htr _ (normalizeQuery_normalized tr t)

/-- Closed witness for `normalizeQuery_idempotent` at a concrete title. -/
theorem normalizeQuery_idempotent_witness :
    (∀ l : List Char, (∀ c ∈ l, keepChar c = true ∨ c = ' ') → (fun x => x) l = l) ∧
    normalizeQuery (fun x => x) (normalizeQuery (fun x => x) ("Hello,  World!".toList)) =
      normalizeQuery (fun x => x) ("Hello,  World!".toList) :=
  ⟨fun _ _ => rfl, normalizeQuery_idempotent (fun x => x) (fun _ _ => rfl) _⟩
